import Mathlib

/-!
Verification of the output-writer core (`utility/output_writer.go`).

Strings are modelled as `List Char` (`Str`); Go byte strings over the inputs
considered here are faithfully represented this way.  Stateful methods on
`OutputWriter` become functions `OutputWriter → …`; methods that can panic
(index out of range, negative repeat count) return `Option`, with `none`
standing for the panic.  Writing to stdout is modelled by returning the list
of printed lines.  Two collaborators are out of scope per the spec: the JSON
serializer (the JSON renderers return the key/value mapping that would be
serialized) and the bordered-table drawer (`WriteTable` returns only the
updated accumulator state).  Go's `regexp.MustCompile(name)` match test is
modelled as literal substring search, which coincides with the source for
the metacharacter-free keys used throughout; Go's unstable `sort.Sort` is
modelled as a deterministic insertion sort by strictly descending length
(all multi-key statements below use keys of distinct lengths, where every
correct descending-length sort agrees).
-/

/-- Go strings, modelled as lists of characters. -/
abbrev Str := List Char

/-- Convenience: the character list of a Lean string literal. -/
def str (s : String) : Str := s.data

/-- Go `strings.Index s pat`: index of the first occurrence of `pat` in `s`
(`some 0` for an empty pattern), `none` when `pat` does not occur. -/
def strIndex : Str → Str → Option Nat
  | [], pat => if pat.isEmpty then some 0 else none
  | c :: t, pat =>
    if pat.isPrefixOf (c :: t) then some 0 else (strIndex t pat).map (· + 1)

/-- The loop body of Go `replaceNth` (source lines 183–197): `i` is the Go
cursor, the `Nat` argument counts the remaining iterations of the
`for m := 1; m <= n; m++` loop. -/
def replaceNthGo (old new : Str) (s : Str) : Nat → Nat → Str
  | _, 0 => s
  | i, r + 1 =>
    match strIndex (s.drop i) old with
    | none => s
    | some x =>
      if r = 0 then s.take (i + x) ++ new ++ s.drop (i + x + old.length)
      else replaceNthGo old new s (i + x + old.length) r

/-- Go `replaceNth s old new n`: replace the n-th occurrence of `old` in `s`
by `new` (source lines 183–197). -/
def replaceNth (s old new : Str) (n : Nat) : Str :=
  replaceNthGo old new s 0 n

/-- Go `strings.Replace s old new 1`: replace the first occurrence only. -/
def replaceOnce (s old new : Str) : Str :=
  match strIndex s old with
  | none => s
  | some i => s.take i ++ new ++ s.drop (i + old.length)

/-- Fueled loop of Go `strings.Replace s old new (-1)` (replace all).  The
fuel `s.length + 1` always suffices for the non-empty patterns (`"\\t"`,
`"\\n"`) the source passes. -/
def replaceAllGo (old new : Str) : Nat → Str → Str
  | 0, s => s
  | fuel + 1, s =>
    match strIndex s old with
    | none => s
    | some i => s.take i ++ new ++ replaceAllGo old new fuel (s.drop (i + old.length))

/-- Go `strings.Replace s old new (-1)`. -/
def replaceAll (s old new : Str) : Str :=
  replaceAllGo old new (s.length + 1) s

/-- The positional placeholder `fmt.Sprintf("$%v$", k)` used by
`WriteCustomOutput`. -/
def placeholder (k : Nat) : Str := '$' :: (Nat.toDigits 10 k ++ ['$'])

/-- One step of the insertion sort modelling `sort.Sort(byLen keys)`:
descending length (`byLen.Less i j ↔ len keys[i] > len keys[j]`). -/
def insertByLen (x : Str) : List Str → List Str
  | [] => [x]
  | y :: ys => if y.length < x.length then x :: y :: ys else y :: insertByLen x ys

/-- `sort.Sort(byLen keys)` (source lines 17–27, 204): keys in descending
length order. -/
def sortByLen (l : List Str) : List Str := l.foldr insertByLen []

/-- The `found` scan of `AppendDataWithLabel` (source lines 82–87): the Go
loop runs over all of `Keys` and keeps overwriting `found`, so it yields the
LAST index whose key matches. -/
def lastIdx : List Str → Str → Option Nat
  | [], _ => none
  | x :: xs, key =>
    match lastIdx xs key with
    | some j => some (j + 1)
    | none => if x = key then some 0 else none

/-- The accumulator state (source lines 42–47). -/
structure OutputWriter where
  Keys : List Str
  Labels : List Str
  Values : List (List Str)
  TempValues : List Str
deriving DecidableEq

/-- `NewOutputWriter` (source lines 50–53). -/
def NewOutputWriter : OutputWriter := ⟨[], [], [], []⟩

namespace OutputWriter

/-- `finishExistingLine` (source lines 74–78): append the in-progress row to
`Values` when non-empty.  Note it does NOT clear `TempValues`. -/
def finishExistingLine (ow : OutputWriter) : OutputWriter :=
  if ow.TempValues = [] then ow
  else { ow with Values := ow.Values ++ [ow.TempValues] }

/-- `StartLine` (source lines 69–72). -/
def StartLine (ow : OutputWriter) : OutputWriter :=
  { ow.finishExistingLine with TempValues := List.replicate ow.Keys.length [] }

/-- `AppendDataWithLabel` (source lines 81–96).  `none` models the Go panic
when `found` is a valid index of `Keys` but not of `TempValues`. -/
def AppendDataWithLabel (ow : OutputWriter) (key value label : Str) :
    Option OutputWriter :=
  match lastIdx ow.Keys key with
  | none =>
      some { ow with
        Keys := ow.Keys ++ [key]
        Labels := ow.Labels ++ [label]
        TempValues := ow.TempValues ++ [value] }
  | some i =>
      if i < ow.TempValues.length then
        some { ow with TempValues := ow.TempValues.set i value }
      else none

/-- `AppendData` (source lines 99–101). -/
def AppendData (ow : OutputWriter) (key value : Str) : Option OutputWriter :=
  ow.AppendDataWithLabel key value key

/-- `WriteSingleObjectJSON` (source lines 104–120): the returned association
list is the mapping handed to the (external) JSON serializer.  `none` models
the panic on `ow.Values[0][i]`. -/
def WriteSingleObjectJSON (ow : OutputWriter) :
    Option (OutputWriter × List (Str × Str)) :=
  let f := ow.finishExistingLine
  ((List.range f.Keys.length).mapM (fun i => do
      let k ← f.Keys.get? i
      let r0 ← f.Values.head?
      let v ← r0.get? i
      pure (k, v))).map (fun pairs => (f, pairs))

/-- `WriteMultipleObjectsJSON` (source lines 123–142): one mapping per row. -/
def WriteMultipleObjectsJSON (ow : OutputWriter) :
    Option (OutputWriter × List (List (Str × Str))) :=
  let f := ow.finishExistingLine
  (f.Values.mapM (fun (row : List Str) =>
      (List.range f.Keys.length).mapM (fun col => do
        let k ← f.Keys.get? col
        let v ← row.get? col
        pure (k, v)))).map (fun data => (f, data))

/-- The running maximum of `len(label)` (source lines 149–154). -/
def maxLabelLength (labels : List Str) : Nat :=
  labels.foldl (fun m l => if m < l.length then l.length else m) 0

/-- One `fmt.Printf("%<w>s : %s\n", label, value)` line of `WriteKeyValues`:
the label is left-padded with spaces to width `w` (never truncated). -/
def kvLine (w : Nat) (label value : Str) : Str :=
  List.replicate (w - label.length) ' ' ++ label ++ str " : " ++ value

/-- `WriteKeyValues` (source lines 146–161).  `none` models the panics on
`ow.Values[0][i]` / `ow.Labels[i]`. -/
def WriteKeyValues (ow : OutputWriter) : Option (OutputWriter × List Str) :=
  let f := ow.finishExistingLine
  let w := maxLabelLength f.Labels
  ((List.range f.Keys.length).mapM (fun i => do
      let r0 ← f.Values.head?
      let v ← r0.get? i
      let lab ← f.Labels.get? i
      pure (kvLine w lab v))).map (fun lines => (f, lines))

/-- `WriteTable` (source lines 165–180): the grid drawing is delegated to the
external `tablewriter` capability (spec §1), which reads but never writes the
accumulator; the accumulator effect is exactly the flush. -/
def WriteTable (ow : OutputWriter) : OutputWriter :=
  ow.finishExistingLine

/-- The Go map `customMap` (source lines 207–210), built from `defaultKeys`
and row 0; a later duplicate key overwrites an earlier one, and a missing key
looks up to the zero value `""`. -/
def cmapOf (keys row : List Str) (k : Str) : Str :=
  (((keys.zip row).reverse).lookup k).getD []

/-- The body of the per-row loop of `WriteCustomOutput` (source lines
212–228): first pass turns the first occurrence of each key (longest first)
into its positional placeholder, second pass turns each placeholder into the
row-0 value, then the `\t`/`\n` escape replacements run.  The code's
presence test `regexp.MustCompile(name).FindStringIndex(output)` is modelled
as literal substring search (`strIndex`), which is exact precisely when the
key is free of regex metacharacters; theorems that quantify over keys
therefore restrict them to alphanumeric keys, and the others use the
concrete metacharacter-free keys of the claims. -/
def customLine (sk : List Str) (cmap : Str → Str) (fields : Str) : Str :=
  let out1 := sk.enum.foldl
    (fun out kn =>
      if (strIndex out kn.2).isSome then replaceNth out kn.2 (placeholder kn.1) 1
      else out)
    fields
  let out2 := sk.enum.foldl
    (fun out kn =>
      if (strIndex out (placeholder kn.1)).isSome then
        replaceOnce out (placeholder kn.1) (cmap kn.2)
      else out)
    out1
  replaceAll (replaceAll out2 (str "\\t") (str "\t")) (str "\\n") (str "\n")

/-- `WriteCustomOutput` (source lines 200–230).  Note the two mutations of
the accumulator: the flush, and the in-place `sort.Sort(byLen(ow.Keys))`.
`none` models the panic of `customMap[key] = ow.Values[0][index]` when there
is no row 0 or row 0 is shorter than `Keys`. -/
def WriteCustomOutput (ow : OutputWriter) (fields : Str) :
    Option (OutputWriter × List Str) :=
  let f := ow.finishExistingLine
  let sk := sortByLen f.Keys
  let ow2 : OutputWriter := { f with Keys := sk }
  if f.Keys.isEmpty then
    some (ow2, f.Values.map (fun _ => customLine sk (cmapOf f.Keys []) fields))
  else
    match f.Values with
    | [] => none
    | r0 :: _ =>
      if f.Keys.length ≤ r0.length then
        some (ow2, f.Values.map (fun _ => customLine sk (cmapOf f.Keys r0) fields))
      else none

/-- `WriteSubheader` (source lines 233–236).  Go's `/` on `int` truncates
toward zero (`Int.div`), and `strings.Repeat` panics on a negative count,
modelled by `none`. -/
def WriteSubheader (label : Str) : Option Str :=
  let count : Int := Int.tdiv (72 - (label.length : Int) + 2) 2
  if count < 0 then none
  else
    some (List.replicate count.toNat '-' ++ [' '] ++ label ++ [' '] ++
      List.replicate count.toNat '-')

/-- `WriteHeader` (source lines 239–241). -/
def WriteHeader (label : Str) : Str := label ++ [':']

end OutputWriter

/-- Modelled from the spec: "the column order equals first-insertion order" —
the list of distinct keys ordered by their first appearance. -/
def firstInsertionOrder (ks : List Str) : List Str :=
  ks.foldl (fun acc k => if k ∈ acc then acc else acc ++ [k]) []

/-- Modelled from the spec: "that key's column position" — the first index
of a key in the column registry. -/
def keyPos : List Str → Str → Nat
  | [], _ => 0
  | x :: xs, k => if x = k then 0 else keyPos xs k + 1

/-- Replaying a sequence of `AppendDataWithLabel` calls
(key, value, label). -/
def runAppends (calls : List (Str × Str × Str)) (ow : OutputWriter) :
    Option OutputWriter :=
  calls.foldlM (fun acc c => acc.AppendDataWithLabel c.1 c.2.1 c.2.2) ow

/-- Accumulator states reachable through the public operations. -/
inductive Reachable : OutputWriter → Prop
  | new : Reachable NewOutputWriter
  | start {ow} : Reachable ow → Reachable ow.StartLine
  | append {ow ow' k v l} : Reachable ow →
      ow.AppendDataWithLabel k v l = some ow' → Reachable ow'
  | table {ow} : Reachable ow → Reachable ow.WriteTable
  | singleJSON {ow ow' out} : Reachable ow →
      ow.WriteSingleObjectJSON = some (ow', out) → Reachable ow'
  | multiJSON {ow ow' out} : Reachable ow →
      ow.WriteMultipleObjectsJSON = some (ow', out) → Reachable ow'
  | keyValues {ow ow' out} : Reachable ow →
      ow.WriteKeyValues = some (ow', out) → Reachable ow'
  | custom {ow ow' out t} : Reachable ow →
      ow.WriteCustomOutput t = some (ow', out) → Reachable ow'

/-! ### Basic facts about `strIndex` (Go `strings.Index`) -/

theorem isPrefixOf_eq_pfx (l₁ l₂ : Str) : l₁.isPrefixOf l₂ = true ↔ l₁ <+: l₂ :=
  List.isPrefixOf_iff_prefix

theorem nil_pfx {l : Str} : ([] : Str) <+: l :=
  List.nil_prefix

theorem take_pfx (n : Nat) (l : Str) : l.take n <+: l :=
  List.take_prefix n l

/-- `strIndex s pat = some i` says: `pat` occurs at `i` and nowhere earlier. -/
theorem strIndex_some_iff (pat : Str) : ∀ (s : Str) (i : Nat),
    strIndex s pat = some i ↔ pat <+: s.drop i ∧ ∀ j < i, ¬ pat <+: s.drop j := by
  intro s
  induction s with
  | nil =>
    intro i
    by_cases hp : pat = []
    · subst hp
      constructor
      · intro h
        have hi : 0 = i := by simpa [strIndex] using h
        subst hi
        exact ⟨nil_pfx, by omega⟩
      · rintro ⟨h1, h2⟩
        have hi : i = 0 := by
          by_contra hne
          exact (h2 0 (by omega)) nil_pfx
        subst hi
        simp [strIndex]
    · constructor
      · intro h
        simp [strIndex, hp, List.isEmpty_iff] at h
      · rintro ⟨h1, h2⟩
        rw [List.drop_nil] at h1
        exact absurd (List.prefix_nil.mp h1) hp
  | cons c t ih =>
    intro i
    simp only [strIndex]
    by_cases hpre : pat.isPrefixOf (c :: t)
    · have hpre' : pat <+: c :: t := (isPrefixOf_eq_pfx pat (c :: t)).mp hpre
      simp only [if_pos hpre]
      constructor
      · intro h
        have : i = 0 := by simpa using h.symm
        subst this
        exact ⟨by simpa using hpre', by omega⟩
      · rintro ⟨-, h2⟩
        by_cases hi : i = 0
        · subst hi; rfl
        · exact absurd (h2 0 (by omega)) (by simpa using hpre')
    · have hpre' : ¬ pat <+: c :: t := fun h => hpre ((isPrefixOf_eq_pfx pat (c :: t)).mpr h)
      simp only [if_neg hpre, Option.map_eq_some']
      constructor
      · rintro ⟨i', hi', rfl⟩
        obtain ⟨h1, h2⟩ := (ih i').mp hi'
        refine ⟨by simpa using h1, ?_⟩
        intro j hj
        cases j with
        | zero => simpa using hpre'
        | succ j' => simpa using h2 j' (by omega)
      · rintro ⟨h1, h2⟩
        cases i with
        | zero => exact absurd (by simpa using h1) hpre'
        | succ i' =>
          refine ⟨i', (ih i').mpr ⟨by simpa using h1, ?_⟩, rfl⟩
          intro j hj
          have := h2 (j + 1) (by omega)
          simpa using this

/-- `strIndex s pat = none` says: `pat` occurs nowhere in `s`. -/
theorem strIndex_none_iff (pat : Str) (s : Str) :
    strIndex s pat = none ↔ ∀ j, ¬ pat <+: s.drop j := by
  induction s with
  | nil =>
    by_cases hp : pat = []
    · subst hp
      simp [strIndex]
    · simp only [List.drop_nil, List.prefix_nil]
      constructor
      · intro _ j
        exact fun h => hp h
      · intro _
        simp [strIndex, hp, List.isEmpty_iff]
  | cons c t ih =>
    simp only [strIndex]
    by_cases hpre : pat.isPrefixOf (c :: t)
    · have hpre' : pat <+: c :: t := (isPrefixOf_eq_pfx pat (c :: t)).mp hpre
      simp only [if_pos hpre]
      constructor
      · intro h; cases h
      · intro h; exact absurd (by simpa using hpre') (h 0)
    · have hpre' : ¬ pat <+: c :: t := fun h => hpre ((isPrefixOf_eq_pfx pat (c :: t)).mpr h)
      simp only [if_neg hpre, Option.map_eq_none']
      rw [ih]
      constructor
      · intro h j
        cases j with
        | zero => simpa using hpre'
        | succ j' => simpa using h j'
      · intro h j
        simpa using h (j + 1)

theorem strIndex_le_length {s pat : Str} {i : Nat} (h : strIndex s pat = some i) :
    i ≤ s.length := by
  obtain ⟨h1, h2⟩ := (strIndex_some_iff pat s i).mp h
  by_contra hgt
  have hnil : s.drop i = [] := by
    apply List.drop_eq_nil_of_le
    omega
  rw [hnil] at h1
  have hpe : pat = [] := List.prefix_nil.mp h1
  subst hpe
  exact (h2 0 (by omega)) nil_pfx

theorem strIndex_of_pfx {pat s : Str} (h : pat <+: s) : strIndex s pat = some 0 := by
  rw [strIndex_some_iff]
  exact ⟨by simpa using h, by omega⟩

theorem strIndex_cons_of_not_pfx {pat : Str} {c : Char} {t : Str}
    (h : ¬ pat <+: c :: t) :
    strIndex (c :: t) pat = (strIndex t pat).map (· + 1) := by
  simp only [strIndex, if_neg (fun hb => h ((isPrefixOf_eq_pfx pat (c :: t)).mp hb))]

/-- A pattern whose first character never appears in `s` occurs nowhere. -/
theorem strIndex_none_of_head_not_mem {c : Char} {pat' s : Str} (h : c ∉ s) :
    strIndex s (c :: pat') = none := by
  rw [strIndex_none_iff]
  intro j hpre
  exact h (List.drop_subset j s (hpre.subset (List.mem_cons_self c pat')))

/-- A prefix of `X ++ Y` no longer than `X` is a prefix of `X`. -/
theorem pfx_of_pfx_append {p X Y : Str} (h : p <+: X ++ Y) (hl : p.length ≤ X.length) :
    p <+: X := by
  have h1 : p = (X ++ Y).take p.length := List.prefix_iff_eq_take.mp h
  rw [List.take_append_eq_append_take] at h1
  have h2 : p.length - X.length = 0 := by omega
  rw [h2] at h1
  simp only [List.take_zero, List.append_nil] at h1
  rw [h1]
  exact take_pfx p.length X

/-! ### First-occurrence computations in concatenations -/

/-- If no occurrence of `pat` starts inside `A`, the first occurrence in
`A ++ B` is the first occurrence in `B`, shifted. -/
theorem strIndex_append_right {pat : Str} (B : Str) : ∀ (A : Str),
    (∀ j < A.length, ¬ pat <+: (A ++ B).drop j) →
    strIndex (A ++ B) pat = (strIndex B pat).map (· + A.length) := by
  intro A
  induction A with
  | nil =>
    intro _
    simp only [List.nil_append, List.length_nil]
    cases strIndex B pat <;> simp
  | cons a A' ih =>
    intro h
    have h0 : ¬ pat <+: a :: (A' ++ B) := by
      have := h 0 (by simp)
      simpa using this
    rw [List.cons_append, strIndex_cons_of_not_pfx h0, ih ?_]
    · cases strIndex B pat <;> simp [Nat.add_assoc]
    · intro j hj
      have := h (j + 1) (by simp; omega)
      simpa using this

/-- No occurrence of a pattern with head `c` starts inside a `c`-free
segment. -/
theorem no_start_of_head_not_mem {c : Char} {p' X R : Str} (hc : c ∉ X) :
    ∀ j < X.length, ¬ (c :: p') <+: (X ++ R).drop j := by
  intro j hj hpre
  rw [List.drop_append_eq_append_drop] at hpre
  have hne : X.drop j ≠ [] := by
    intro h0
    have hlen : (X.drop j).length = X.length - j := List.length_drop j X
    rw [h0] at hlen
    simp at hlen
    omega
  obtain ⟨d, X', hXd⟩ := List.exists_cons_of_ne_nil hne
  rw [hXd, List.cons_append, List.cons_prefix_cons] at hpre
  have hd : d ∈ X := List.drop_subset j X (hXd ▸ List.mem_cons_self d X')
  exact hc (hpre.1 ▸ hd)

/-- No occurrence of a two-character pattern starts inside `X` when the
pattern occurs nowhere inside `X` and the second character does not open
`R`. -/
theorem no_start_two {c1 c2 : Char} {X R : Str}
    (hnone : ∀ j, ¬ ([c1, c2] <+: X.drop j))
    (hhd : ∀ d, R.head? = some d → c2 ≠ d) :
    ∀ j < X.length, ¬ ([c1, c2] <+: (X ++ R).drop j) := by
  intro j hj hpre
  rw [List.drop_append_eq_append_drop] at hpre
  by_cases hlen : 2 ≤ X.length - j
  · exact hnone j (pfx_of_pfx_append hpre (by rw [List.length_drop]; simpa using hlen))
  · have h1 : (X.drop j).length = 1 := by rw [List.length_drop]; omega
    obtain ⟨d, hd⟩ := List.length_eq_one.mp h1
    rw [hd, List.cons_append, List.cons_prefix_cons] at hpre
    obtain ⟨-, hpre2⟩ := hpre
    have hj0 : j - X.length = 0 := by omega
    rw [hj0, List.drop_zero, List.nil_append] at hpre2
    cases R with
    | nil => simp [List.prefix_nil] at hpre2
    | cons r R' =>
      rw [List.cons_prefix_cons] at hpre2
      exact hhd r rfl hpre2.1

/-- No-start conditions compose across concatenation. -/
theorem no_start_append {p X1 X2 R : Str}
    (h1 : ∀ j < X1.length, ¬ p <+: (X1 ++ (X2 ++ R)).drop j)
    (h2 : ∀ j < X2.length, ¬ p <+: (X2 ++ R).drop j) :
    ∀ j < (X1 ++ X2).length, ¬ p <+: ((X1 ++ X2) ++ R).drop j := by
  intro j hj
  rw [List.append_assoc]
  by_cases hc : j < X1.length
  · exact h1 j hc
  · intro hpre
    have hj2 : j - X1.length < X2.length := by
      simp only [List.length_append] at hj
      omega
    apply h2 (j - X1.length) hj2
    rw [List.drop_append_eq_append_drop] at hpre
    have hX1 : X1.drop j = [] := by
      apply List.drop_eq_nil_of_le
      omega
    rw [hX1, List.nil_append] at hpre
    exact hpre

/-- Below a first-occurrence index of `p` in `s`, no occurrence of `p` starts
in `s ++ R` either. -/
theorem no_start_lt_first {p s : Str} (R : Str) {i : Nat}
    (h : strIndex s p = some i) :
    ∀ j < i, ¬ p <+: (s ++ R).drop j := by
  obtain ⟨h1, h2⟩ := (strIndex_some_iff p s i).mp h
  have hi : i ≤ s.length := strIndex_le_length h
  have hplen : p.length ≤ s.length - i := by
    have := h1.length_le
    rw [List.length_drop] at this
    exact this
  intro j hj hpre
  rw [List.drop_append_eq_append_drop] at hpre
  apply h2 j hj
  exact pfx_of_pfx_append hpre (by rw [List.length_drop]; omega)

/-- The first occurrence of `p` in `X ++ p ++ Y` is at `X.length` when no
occurrence starts inside `X`. -/
theorem strIndex_append_site {p : Str} (X Y : Str)
    (h : ∀ j < X.length, ¬ p <+: (X ++ (p ++ Y)).drop j) :
    strIndex (X ++ p ++ Y) p = some X.length := by
  rw [List.append_assoc, strIndex_append_right (p ++ Y) X h,
    strIndex_of_pfx (List.prefix_append p Y)]
  simp

/-! ### The replace functions -/

/-- `replaceNth _ _ _ 1` is exactly first-occurrence replacement. -/
theorem replaceNth_one (s old new : Str) :
    replaceNth s old new 1 = replaceOnce s old new := by
  simp only [replaceNth, replaceNthGo, List.drop_zero, replaceOnce]
  cases h : strIndex s old <;> simp

/-- `replaceOnce` at an identified first occurrence. -/
theorem replaceOnce_first {s old : Str} {i : Nat} (new : Str)
    (h : strIndex s old = some i) :
    replaceOnce s old new = s.take i ++ new ++ s.drop (i + old.length) := by
  simp only [replaceOnce, h]

/-- A string decomposes around a first occurrence. -/
theorem strIndex_decomp {s p : Str} {i : Nat} (h : strIndex s p = some i) :
    s = s.take i ++ p ++ s.drop (i + p.length) ∧ (s.take i).length = i := by
  obtain ⟨h1, -⟩ := (strIndex_some_iff p s i).mp h
  have hi : i ≤ s.length := strIndex_le_length h
  obtain ⟨rest, hrest⟩ := h1
  constructor
  · have hdrop : s.drop i = p ++ rest := hrest.symm
    have hrest' : rest = s.drop (i + p.length) := by
      have : (s.drop i).drop p.length = rest := by rw [hdrop]; simp
      rw [← this, List.drop_drop, Nat.add_comm]
    rw [← hrest', List.append_assoc, ← hdrop, List.take_append_drop]
  · rw [List.length_take]
    omega

/-- `replaceOnce` rewrites `X ++ p ++ Y` to `X ++ v ++ Y` when no occurrence
of `p` starts inside `X`. -/
theorem replaceOnce_site {p X Y : Str} (v : Str)
    (h : ∀ j < X.length, ¬ p <+: (X ++ (p ++ Y)).drop j) :
    replaceOnce (X ++ p ++ Y) p v = X ++ v ++ Y := by
  have hs := strIndex_append_site X Y h
  rw [replaceOnce_first v hs]
  have ht : (X ++ p ++ Y).take X.length = X := by
    rw [List.append_assoc]
    exact List.take_left X (p ++ Y)
  have hd : (X ++ p ++ Y).drop (X.length + p.length) = Y := by
    have hl : (X ++ p).length = X.length + p.length := List.length_append X p
    rw [← hl]
    exact List.drop_left (X ++ p) Y
  rw [ht, hd]

/-- `strings.Replace _ _ _ (-1)` does nothing when the pattern is absent. -/
theorem replaceAll_of_none {s old : Str} (new : Str) (h : strIndex s old = none) :
    replaceAll s old new = s := by
  simp [replaceAll, replaceAllGo, h]

/-! ### The descending-length sort, the `found` scan, and fold helpers -/

theorem insertByLen_perm (x : Str) (l : List Str) :
    List.Perm (insertByLen x l) (x :: l) := by
  induction l with
  | nil => rfl
  | cons y ys ih =>
    simp only [insertByLen]
    by_cases h : y.length < x.length
    · rw [if_pos h]
    · rw [if_neg h]
      exact (ih.cons y).trans (List.Perm.swap x y ys)

theorem sortByLen_perm (l : List Str) : List.Perm (sortByLen l) l := by
  induction l with
  | nil => rfl
  | cons x xs ih => exact (insertByLen_perm x (sortByLen xs)).trans (ih.cons x)

theorem insertByLen_sorted {x : Str} {l : List Str}
    (h : l.Sorted (fun a b => b.length ≤ a.length)) :
    (insertByLen x l).Sorted (fun a b => b.length ≤ a.length) := by
  induction l with
  | nil => simp [insertByLen]
  | cons y ys ih =>
    rw [List.sorted_cons] at h
    obtain ⟨hy, hys⟩ := h
    simp only [insertByLen]
    by_cases hc : y.length < x.length
    · rw [if_pos hc, List.sorted_cons]
      refine ⟨?_, ?_⟩
      · intro b hb
        rcases List.mem_cons.mp hb with rfl | hb'
        · omega
        · have := hy b hb'
          omega
      · rw [List.sorted_cons]
        exact ⟨hy, hys⟩
    · rw [if_neg hc, List.sorted_cons]
      refine ⟨?_, ih hys⟩
      intro b hb
      have hmem := (insertByLen_perm x ys).mem_iff.mp hb
      rcases List.mem_cons.mp hmem with rfl | hb'
      · omega
      · exact hy b hb'

theorem sortByLen_sorted (l : List Str) :
    (sortByLen l).Sorted (fun a b => b.length ≤ a.length) := by
  induction l with
  | nil => simp [sortByLen]
  | cons x xs ih => exact insertByLen_sorted ih

theorem lastIdx_none_iff (l : List Str) (k : Str) : lastIdx l k = none ↔ k ∉ l := by
  induction l with
  | nil => simp [lastIdx]
  | cons x xs ih =>
    simp only [lastIdx]
    cases h : lastIdx xs k with
    | some j =>
      have hk : k ∈ xs := by
        by_contra hk
        rw [ih.mpr hk] at h
        cases h
      simp [hk]
    | none =>
      have hk : k ∉ xs := ih.mp h
      by_cases hx : x = k
      · subst hx
        simp [hk]
      · have hkx : ¬ k = x := fun h0 => hx h0.symm
        simp [hx, hk, hkx]

theorem lastIdx_lt_length {l : List Str} {k : Str} {i : Nat}
    (h : lastIdx l k = some i) : i < l.length := by
  induction l generalizing i with
  | nil => cases h
  | cons x xs ih =>
    simp only [lastIdx] at h
    cases hx : lastIdx xs k with
    | some j =>
      rw [hx] at h
      obtain rfl : j + 1 = i := by simpa using h
      have := ih hx
      simp
      omega
    | none =>
      rw [hx] at h
      by_cases hxk : x = k
      · rw [if_pos hxk] at h
        obtain rfl : 0 = i := by simpa using h
        simp
      · rw [if_neg hxk] at h
        cases h

theorem lastIdx_of_nodup {l : List Str} {k : Str} (hnd : l.Nodup) (hm : k ∈ l) :
    lastIdx l k = some (keyPos l k) := by
  induction l with
  | nil => cases hm
  | cons x xs ih =>
    rw [List.nodup_cons] at hnd
    obtain ⟨hx, hnd'⟩ := hnd
    simp only [lastIdx]
    by_cases hxk : x = k
    · subst hxk
      rw [(lastIdx_none_iff xs x).mpr hx]
      simp [keyPos]
    · have hm' : k ∈ xs := by
        rcases List.mem_cons.mp hm with rfl | hm'
        · exact absurd rfl hxk
        · exact hm'
      rw [ih hnd' hm']
      simp [keyPos, hxk]

theorem mapM_some_of_forall {α β : Type} (l : List α) (f : α → Option β) (g : α → β)
    (h : ∀ x ∈ l, f x = some (g x)) : l.mapM f = some (l.map g) := by
  induction l with
  | nil => rfl
  | cons x xs ih =>
    rw [List.mapM_cons, h x (List.mem_cons_self x xs),
      ih (fun y hy => h y (List.mem_cons_of_mem x hy))]
    rfl

theorem maxLabelLength_go (labels : List Str) : ∀ acc,
    labels.foldl (fun m l => if m < l.length then l.length else m) acc =
      max acc ((labels.map List.length).foldr max 0) := by
  induction labels with
  | nil =>
    intro acc
    simp
  | cons x xs ih =>
    intro acc
    simp only [List.foldl_cons, List.map_cons, List.foldr_cons]
    rw [ih]
    rcases Nat.lt_or_ge acc x.length with h | h
    · rw [if_pos h]
      omega
    · rw [if_neg (by omega)]
      omega

/-- The running-maximum loop of `WriteKeyValues` computes the maximum label
length. -/
theorem maxLabelLength_eq (labels : List Str) :
    OutputWriter.maxLabelLength labels = (labels.map List.length).foldr max 0 := by
  rw [OutputWriter.maxLabelLength, maxLabelLength_go]
  omega

/-! ### State effects of the accumulator operations -/

theorem flush_keys (ow : OutputWriter) : ow.finishExistingLine.Keys = ow.Keys := by
  rw [OutputWriter.finishExistingLine]
  split <;> rfl

theorem flush_labels (ow : OutputWriter) :
    ow.finishExistingLine.Labels = ow.Labels := by
  rw [OutputWriter.finishExistingLine]
  split <;> rfl

theorem flush_temp (ow : OutputWriter) :
    ow.finishExistingLine.TempValues = ow.TempValues := by
  rw [OutputWriter.finishExistingLine]
  split <;> rfl

theorem flush_values (ow : OutputWriter) :
    ow.finishExistingLine.Values =
      ow.Values ++ (if ow.TempValues = [] then [] else [ow.TempValues]) := by
  rw [OutputWriter.finishExistingLine]
  split <;> simp_all

theorem singleJSON_state {ow : OutputWriter} {r : OutputWriter × List (Str × Str)}
    (h : ow.WriteSingleObjectJSON = some r) : r.1 = ow.finishExistingLine := by
  simp only [OutputWriter.WriteSingleObjectJSON, Option.map_eq_some'] at h
  obtain ⟨a, -, hfa⟩ := h
  rw [← hfa]

theorem multiJSON_state {ow : OutputWriter}
    {r : OutputWriter × List (List (Str × Str))}
    (h : ow.WriteMultipleObjectsJSON = some r) : r.1 = ow.finishExistingLine := by
  simp only [OutputWriter.WriteMultipleObjectsJSON, Option.map_eq_some'] at h
  obtain ⟨a, -, hfa⟩ := h
  rw [← hfa]

theorem keyValues_state {ow : OutputWriter} {r : OutputWriter × List Str}
    (h : ow.WriteKeyValues = some r) : r.1 = ow.finishExistingLine := by
  simp only [OutputWriter.WriteKeyValues, Option.map_eq_some'] at h
  obtain ⟨a, -, hfa⟩ := h
  rw [← hfa]

theorem custom_state {ow : OutputWriter} {t : Str} {r : OutputWriter × List Str}
    (h : ow.WriteCustomOutput t = some r) :
    r.1 = { ow.finishExistingLine with
            Keys := sortByLen ow.finishExistingLine.Keys } := by
  simp only [OutputWriter.WriteCustomOutput] at h
  split at h
  · cases h
    rfl
  · split at h
    · cases h
    · split at h
      · cases h
        rfl
      · cases h

theorem appendData_new {ow : OutputWriter} {k v l : Str} (h : k ∉ ow.Keys) :
    ow.AppendDataWithLabel k v l =
      some { ow with
        Keys := ow.Keys ++ [k]
        Labels := ow.Labels ++ [l]
        TempValues := ow.TempValues ++ [v] } := by
  rw [OutputWriter.AppendDataWithLabel, (lastIdx_none_iff _ _).mpr h]

theorem appendData_existing {ow : OutputWriter} {k v l : Str}
    (hnd : ow.Keys.Nodup) (hlen : ow.TempValues.length = ow.Keys.length)
    (h : k ∈ ow.Keys) :
    ow.AppendDataWithLabel k v l =
      some { ow with TempValues := ow.TempValues.set (keyPos ow.Keys k) v } := by
  have hL := lastIdx_of_nodup hnd h
  have hlt := lastIdx_lt_length hL
  simp only [OutputWriter.AppendDataWithLabel, hL]
  rw [if_pos (by omega)]

/-! ### Reachability invariant: non-empty keys force a pending or stored row -/

theorem reachable_inv {ow : OutputWriter} (h : Reachable ow) :
    ow.Keys = [] ∨ ow.TempValues ≠ [] ∨ ow.Values ≠ [] := by
  induction h with
  | new => exact Or.inl rfl
  | start h ih =>
    rename_i ow0
    by_cases hk : ow0.Keys = []
    · exact Or.inl (by simp [OutputWriter.StartLine, flush_keys, hk])
    · refine Or.inr (Or.inl ?_)
      simp only [OutputWriter.StartLine]
      simp only [ne_eq, List.replicate_eq_nil_iff]
      intro h0
      exact hk (List.length_eq_zero.mp h0)
  | append h heq ih =>
    rename_i ow0 ow1 k v l
    rw [OutputWriter.AppendDataWithLabel] at heq
    cases hL : lastIdx ow0.Keys k with
    | none =>
      simp only [hL] at heq
      cases heq
      refine Or.inr (Or.inl ?_)
      simp
    | some i =>
      simp only [hL] at heq
      by_cases hlt : i < ow0.TempValues.length
      · rw [if_pos hlt] at heq
        cases heq
        refine Or.inr (Or.inl ?_)
        intro h0
        have h1 : ow0.TempValues.set i v = [] := h0
        rw [← List.length_eq_zero, List.length_set] at h1
        omega
      · rw [if_neg hlt] at heq
        cases heq
  | table h ih =>
    rename_i ow0
    rcases ih with hk | ht | hv
    · exact Or.inl (by simpa [OutputWriter.WriteTable, flush_keys] using hk)
    · exact Or.inr (Or.inl (by simpa [OutputWriter.WriteTable, flush_temp] using ht))
    · refine Or.inr (Or.inr ?_)
      simp only [OutputWriter.WriteTable, flush_values]
      intro h0
      rcases List.append_eq_nil.mp h0 with ⟨h1, -⟩
      exact hv h1
  | singleJSON h heq ih =>
    rename_i ow0 ow1 out
    have hst : ow1 = ow0.finishExistingLine := singleJSON_state heq
    subst hst
    rcases ih with hk | ht | hv
    · exact Or.inl (by simpa [flush_keys] using hk)
    · exact Or.inr (Or.inl (by simpa [flush_temp] using ht))
    · refine Or.inr (Or.inr ?_)
      rw [flush_values]
      intro h0
      rcases List.append_eq_nil.mp h0 with ⟨h1, -⟩
      exact hv h1
  | multiJSON h heq ih =>
    rename_i ow0 ow1 out
    have hst : ow1 = ow0.finishExistingLine := multiJSON_state heq
    subst hst
    rcases ih with hk | ht | hv
    · exact Or.inl (by simpa [flush_keys] using hk)
    · exact Or.inr (Or.inl (by simpa [flush_temp] using ht))
    · refine Or.inr (Or.inr ?_)
      rw [flush_values]
      intro h0
      rcases List.append_eq_nil.mp h0 with ⟨h1, -⟩
      exact hv h1
  | keyValues h heq ih =>
    rename_i ow0 ow1 out
    have hst : ow1 = ow0.finishExistingLine := keyValues_state heq
    subst hst
    rcases ih with hk | ht | hv
    · exact Or.inl (by simpa [flush_keys] using hk)
    · exact Or.inr (Or.inl (by simpa [flush_temp] using ht))
    · refine Or.inr (Or.inr ?_)
      rw [flush_values]
      intro h0
      rcases List.append_eq_nil.mp h0 with ⟨h1, -⟩
      exact hv h1
  | custom h heq ih =>
    rename_i ow0 ow1 out t
    have hst : ow1 = { ow0.finishExistingLine with
        Keys := sortByLen ow0.finishExistingLine.Keys } :=
      custom_state heq
    subst hst
    rcases ih with hk | ht | hv
    · refine Or.inl ?_
      have : (sortByLen ow0.Keys).length = ow0.Keys.length :=
        (sortByLen_perm ow0.Keys).length_eq
      simp only [flush_keys]
      rw [hk] at this ⊢
      exact List.length_eq_zero.mp (by simpa using this)
    · exact Or.inr (Or.inl (by simpa [flush_temp] using ht))
    · refine Or.inr (Or.inr ?_)
      show ow0.finishExistingLine.Values ≠ []
      rw [flush_values]
      intro h0
      rcases List.append_eq_nil.mp h0 with ⟨h1, -⟩
      exact hv h1

/-! ### Replaying sequences of `setField` calls -/

theorem runAppends_cons (c : Str × Str × Str) (cs : List (Str × Str × Str))
    (ow : OutputWriter) :
    runAppends (c :: cs) ow =
      (ow.AppendDataWithLabel c.1 c.2.1 c.2.2).bind (runAppends cs) := by
  rw [runAppends, List.foldlM_cons]
  rfl

theorem runAppends_wf (calls : List (Str × Str × Str)) : ∀ (ow : OutputWriter),
    ow.Keys.Nodup → ow.TempValues.length = ow.Keys.length →
    ∃ ow', runAppends calls ow = some ow' ∧
      ow'.Keys =
        calls.foldl (fun acc c => if c.1 ∈ acc then acc else acc ++ [c.1]) ow.Keys ∧
      ow'.Keys.Nodup ∧ ow'.TempValues.length = ow'.Keys.length := by
  induction calls with
  | nil =>
    intro ow h1 h2
    exact ⟨ow, rfl, rfl, h1, h2⟩
  | cons c cs ih =>
    intro ow h1 h2
    rw [List.foldl_cons]
    by_cases hm : c.1 ∈ ow.Keys
    · rw [if_pos hm]
      obtain ⟨ow', hrun, hkeys, hnd, hlen⟩ :=
        ih { ow with TempValues := ow.TempValues.set (keyPos ow.Keys c.1) c.2.1 } h1
          (by simpa using h2)
      refine ⟨ow', ?_, hkeys, hnd, hlen⟩
      rw [runAppends_cons, appendData_existing h1 h2 hm]
      simpa using hrun
    · rw [if_neg hm]
      have hnd' : (ow.Keys ++ [c.1]).Nodup := by
        simp [List.nodup_append, h1, hm]
      obtain ⟨ow', hrun, hkeys, hnd2, hlen2⟩ :=
        ih { ow with
              Keys := ow.Keys ++ [c.1]
              Labels := ow.Labels ++ [c.2.2]
              TempValues := ow.TempValues ++ [c.2.1] } hnd' (by simp [h2])
      refine ⟨ow', ?_, hkeys, hnd2, hlen2⟩
      rw [runAppends_cons, appendData_new hm]
      simpa using hrun

theorem foldl_ins_mem (ks : List Str) : ∀ (acc : List Str) (k : Str),
    k ∈ ks.foldl (fun a x => if x ∈ a then a else a ++ [x]) acc ↔
      k ∈ acc ∨ k ∈ ks := by
  induction ks with
  | nil =>
    intro acc k
    simp
  | cons x xs ih =>
    intro acc k
    rw [List.foldl_cons]
    by_cases hx : x ∈ acc
    · rw [if_pos hx, ih]
      constructor
      · rintro (h | h)
        · exact Or.inl h
        · exact Or.inr (List.mem_cons_of_mem x h)
      · rintro (h | h)
        · exact Or.inl h
        · rcases List.mem_cons.mp h with rfl | h'
          · exact Or.inl hx
          · exact Or.inr h'
    · rw [if_neg hx, ih]
      simp only [List.mem_append, List.mem_singleton, List.mem_cons]
      tauto

/-! ### Claim theorems -/

/-- C1: the custom-template renderer prints one line per finalized row, but
builds its key→value map from row 0 only, so every line carries row 0's
values.  At rows `["a"]`, `["b"]` with template `"K"` both printed lines are
`"a"`, where the claim requires the second line to substitute row 1's value
`"b"`. -/
theorem c1_custom_output_uses_row0_for_all_rows :
    (OutputWriter.mk [str "K"] [str "K"] [[str "a"], [str "b"]]
        []).WriteCustomOutput (str "K") =
      some (OutputWriter.mk [str "K"] [str "K"] [[str "a"], [str "b"]] [],
        [str "a", str "a"]) := by
  decide

/-- C2 counterexample: `WriteCustomOutput` does not leave `Keys` unchanged —
`sort.Sort(byLen(ow.Keys))` permutes them in place, turning
`["ID","BUILDID"]` into `["BUILDID","ID"]`. -/
theorem c2_counterexample_custom_sorts_keys_in_place :
    ((OutputWriter.mk [str "ID", str "BUILDID"] [str "ID", str "BUILDID"]
        [[str "1", str "99"]] []).WriteCustomOutput []).map (fun r => r.1.Keys) =
      some [str "BUILDID", str "ID"] ∧
    [str "BUILDID", str "ID"] ≠ [str "ID", str "BUILDID"] := by
  decide

/-- C2 (amended): the accumulator effect of every renderer is exactly the
flush — `Keys`, `Labels`, `TempValues` are untouched and the non-empty
in-progress row is appended to `Values` — except `WriteCustomOutput`, which
additionally permutes `Keys` in place into descending-length order while
leaving `Labels`, `Values` and `TempValues` at their flushed state. -/
theorem c2_renderer_state_effects (ow : OutputWriter) (t : Str) :
    (ow.finishExistingLine.Keys = ow.Keys ∧
     ow.finishExistingLine.Labels = ow.Labels ∧
     ow.finishExistingLine.TempValues = ow.TempValues ∧
     ow.finishExistingLine.Values =
       ow.Values ++ (if ow.TempValues = [] then [] else [ow.TempValues])) ∧
    (∀ r, ow.WriteSingleObjectJSON = some r → r.1 = ow.finishExistingLine) ∧
    (∀ r, ow.WriteMultipleObjectsJSON = some r → r.1 = ow.finishExistingLine) ∧
    (∀ r, ow.WriteKeyValues = some r → r.1 = ow.finishExistingLine) ∧
    ow.WriteTable = ow.finishExistingLine ∧
    (∀ r, ow.WriteCustomOutput t = some r →
      r.1.Labels = ow.finishExistingLine.Labels ∧
      r.1.Values = ow.finishExistingLine.Values ∧
      r.1.TempValues = ow.finishExistingLine.TempValues ∧
      r.1.Keys = sortByLen ow.finishExistingLine.Keys ∧
      List.Perm r.1.Keys ow.finishExistingLine.Keys ∧
      r.1.Keys.Sorted (fun a b => b.length ≤ a.length)) := by
  refine ⟨⟨flush_keys ow, flush_labels ow, flush_temp ow, flush_values ow⟩,
    fun r h => singleJSON_state h, fun r h => multiJSON_state h,
    fun r h => keyValues_state h, rfl, fun r h => ?_⟩
  have hst := custom_state h
  rw [hst]
  exact ⟨rfl, rfl, rfl, rfl, sortByLen_perm _, sortByLen_sorted _⟩

/-- C2 witness: the amended statement evaluated on a concrete accumulator
and a successful `WriteCustomOutput` call. -/
theorem c2_renderer_state_effects_witness :
    (OutputWriter.mk [str "ID", str "BUILDID"] [str "ID", str "BUILDID"]
        [[str "1", str "99"]] []).WriteCustomOutput (str "X") =
      some (OutputWriter.mk [str "BUILDID", str "ID"] [str "ID", str "BUILDID"]
        [[str "1", str "99"]] [], [str "X"]) ∧
    ((OutputWriter.mk [str "BUILDID", str "ID"] [str "ID", str "BUILDID"]
        [[str "1", str "99"]] [], [str "X"]) :
          OutputWriter × List Str).1.Labels =
      (OutputWriter.mk [str "ID", str "BUILDID"] [str "ID", str "BUILDID"]
        [[str "1", str "99"]] []).finishExistingLine.Labels :=
  ⟨by decide,
    ((c2_renderer_state_effects
        (OutputWriter.mk [str "ID", str "BUILDID"] [str "ID", str "BUILDID"]
          [[str "1", str "99"]] []) (str "X")).2.2.2.2.2
      (OutputWriter.mk [str "BUILDID", str "ID"] [str "ID", str "BUILDID"]
        [[str "1", str "99"]] [], [str "X"]) (by decide)).1⟩

/-- C4: on every reachable accumulator whose finalized row sequence is empty
after the automatic flush, the custom-template renderer succeeds (no
out-of-bounds failure) and produces zero output lines, for any template. -/
theorem c4_empty_rows_render_nothing {ow : OutputWriter} (h : Reachable ow)
    (hv : ow.finishExistingLine.Values = []) (t : Str) :
    ow.WriteCustomOutput t =
      some ({ ow.finishExistingLine with
              Keys := sortByLen ow.finishExistingLine.Keys }, []) := by
  have htv : ow.TempValues = [] := by
    by_contra htv
    rw [flush_values, if_neg htv] at hv
    simp at hv
  have hval : ow.Values = [] := by
    rw [flush_values, if_pos htv] at hv
    simpa using hv
  have hkeys : ow.Keys = [] := by
    rcases reachable_inv h with hk | ht | hv2
    · exact hk
    · exact absurd htv ht
    · exact absurd hval hv2
  have hfk : ow.finishExistingLine.Keys = [] := by rw [flush_keys]; exact hkeys
  simp only [OutputWriter.WriteCustomOutput, hfk, List.isEmpty_nil, if_true, hv,
    List.map_nil]

/-- C4 witness: the fresh accumulator has no finalized rows and renders zero
lines. -/
theorem c4_empty_rows_render_nothing_witness :
    NewOutputWriter.finishExistingLine.Values = [] ∧
      NewOutputWriter.WriteCustomOutput (str "ID: ID") =
        some ({ NewOutputWriter.finishExistingLine with
                Keys := sortByLen NewOutputWriter.finishExistingLine.Keys },
          []) :=
  ⟨rfl, c4_empty_rows_render_nothing Reachable.new rfl (str "ID: ID")⟩

/-- C5 counterexample: on a 76-character label the Go repeat count
`(72 - 76 + 2) / 2` is negative and `strings.Repeat` panics (modelled by
`none`), so `WriteSubheader` does not print a line for every label string. -/
theorem c5_counterexample_long_label_panics :
    OutputWriter.WriteSubheader (List.replicate 76 'a') = none := by
  decide

/-- C5 (amended): for every label of length at most 75 (longer labels make
the repeat count negative and panic), `WriteSubheader` prints one line
consisting of a dash run, one space, the label, one space, and a dash run,
both runs having the same length `(74 - len) / 2` (integer division), so the
left run trivially equals the right run within the claimed one-character
bias. -/
theorem c5_subheader_centred (label : Str) (h : label.length ≤ 75) :
    OutputWriter.WriteSubheader label =
      some (List.replicate ((74 - label.length) / 2) '-' ++ [' '] ++ label ++
        [' '] ++ List.replicate ((74 - label.length) / 2) '-') := by
  have hdiv : Int.tdiv (72 - (label.length : Int) + 2) 2 =
      (((74 - label.length) / 2 : Nat) : Int) := by
    rcases Nat.lt_or_ge label.length 75 with h74 | h75
    · have hcast : (72 - (label.length : Int) + 2) =
          ((74 - label.length : Nat) : Int) := by
        omega
      rw [hcast]
      rfl
    · have h75' : label.length = 75 := by omega
      rw [h75']
      decide
  simp only [OutputWriter.WriteSubheader, hdiv]
  rw [if_neg (by exact not_lt.mpr (Int.natCast_nonneg _))]
  rfl

/-- C5 witness: the one-character label of the spec's test. -/
theorem c5_subheader_centred_witness :
    (str "X").length ≤ 75 ∧
      OutputWriter.WriteSubheader (str "X") =
        some (List.replicate 36 '-' ++ [' '] ++ str "X" ++ [' '] ++
          List.replicate 36 '-') :=
  ⟨by decide, (c5_subheader_centred (str "X") (by decide)).trans (by decide)⟩

/-- C9: the flush appends the in-progress buffer to `Values` without
clearing it, so with a non-empty buffer a second renderer invocation (or a
following `StartLine`) appends the same buffer again, duplicating the last
row. -/
theorem c9_flush_does_not_clear_buffer (ow : OutputWriter)
    (h : ow.TempValues ≠ []) :
    ow.WriteTable.TempValues = ow.TempValues ∧
    ow.WriteTable.WriteTable.Values =
      ow.Values ++ [ow.TempValues, ow.TempValues] ∧
    ow.WriteTable.StartLine.Values =
      ow.Values ++ [ow.TempValues, ow.TempValues] := by
  have hv2 : ow.finishExistingLine.finishExistingLine.Values =
      ow.Values ++ [ow.TempValues, ow.TempValues] := by
    rw [flush_values, flush_temp, flush_values, if_neg h]
    simp
  refine ⟨flush_temp ow, hv2, ?_⟩
  show ({ ow.WriteTable.finishExistingLine with
          TempValues := List.replicate ow.WriteTable.Keys.length [] }).Values = _
  exact hv2

/-- C9 witness. -/
theorem c9_flush_does_not_clear_buffer_witness :
    (OutputWriter.mk [str "K"] [str "K"] [] [str "a"]).TempValues ≠ [] ∧
    (OutputWriter.mk [str "K"] [str "K"] []
        [str "a"]).WriteTable.WriteTable.Values =
      [] ++ [[str "a"], [str "a"]] :=
  ⟨by decide,
    (c9_flush_does_not_clear_buffer
      (OutputWriter.mk [str "K"] [str "K"] [] [str "a"]) (by decide)).2.1⟩

/-- `old <+: s.drop j` exhibits `old` as an infix of `s`. -/
theorem infix_of_pfx_drop {old s : Str} {j : Nat} (h : old <+: s.drop j) :
    old <:+: s := by
  obtain ⟨t2, ht⟩ := h
  exact ⟨s.take j, t2, by rw [List.append_assoc, ht, List.take_append_drop]⟩

/-- C10: `replaceNth s old new 1` with non-empty `old` returns `s` unchanged
when `old` does not occur in `s`, and otherwise replaces exactly the first
(leftmost) occurrence of `old` by `new`. -/
theorem c10_replaceNth_one_replaces_first (s old new : Str) (hne : old ≠ []) :
    (¬ (old <:+: s) → replaceNth s old new 1 = s) ∧
    (∀ i, old <+: s.drop i → (∀ j < i, ¬ old <+: s.drop j) →
      replaceNth s old new 1 = s.take i ++ new ++ s.drop (i + old.length)) := by
  constructor
  · intro hni
    have hnone : strIndex s old = none := by
      rw [strIndex_none_iff]
      intro j hj
      exact hni (infix_of_pfx_drop hj)
    rw [replaceNth_one]
    simp only [replaceOnce, hnone]
  · intro i h1 h2
    have hsome : strIndex s old = some i := (strIndex_some_iff old s i).mpr ⟨h1, h2⟩
    rw [replaceNth_one, replaceOnce_first new hsome]

/-- C10 witness: the first of the two occurrences of "ab" in "xabyab" is
replaced. -/
theorem c10_replaceNth_one_replaces_first_witness :
    (str "ab" : Str) ≠ [] ∧ str "ab" <+: (str "xabyab").drop 1 ∧
      replaceNth (str "xabyab") (str "ab") (str "ZZ") 1 = str "xZZyab" :=
  ⟨by decide, by decide,
    ((c10_replaceNth_one_replaces_first (str "xabyab") (str "ab") (str "ZZ")
        (by decide)).2 1 (by decide) (by decide)).trans (by decide)⟩

theorem get?_eq_some_getD {α : Type} (l : List α) (d : α) (i : Nat)
    (h : i < l.length) : l.get? i = some (l.getD i d) := by
  rw [List.getD_eq_getElem?_getD, ← List.get?_eq_getElem?]
  cases hx : l.get? i with
  | none =>
    rw [List.get?_eq_none] at hx
    omega
  | some a => rfl

/-- C6: replaying any sequence of `setField` calls on a fresh accumulator
yields exactly the distinct keys, `Nodup`, in first-insertion order; and on
any well-formed accumulator a `setField` with an existing key overwrites the
in-progress value at that key's column position in place, leaving `Keys` and
`Labels` (hence the stored label) unchanged. -/
theorem c6_setField_columns (calls : List (Str × Str × Str)) :
    (∃ ow', runAppends calls NewOutputWriter = some ow' ∧
       ow'.Keys = firstInsertionOrder (calls.map (fun c => c.1)) ∧
       ow'.Keys.Nodup ∧
       (∀ k, k ∈ ow'.Keys ↔ k ∈ calls.map (fun c => c.1))) ∧
    (∀ (ow : OutputWriter) (k v l : Str), ow.Keys.Nodup →
       ow.TempValues.length = ow.Keys.length → k ∈ ow.Keys →
       ow.AppendDataWithLabel k v l =
         some { ow with TempValues := ow.TempValues.set (keyPos ow.Keys k) v }) := by
  constructor
  · obtain ⟨ow', hrun, hkeys, hnd, -⟩ :=
      runAppends_wf calls NewOutputWriter List.nodup_nil rfl
    refine ⟨ow', hrun, ?_, hnd, ?_⟩
    · rw [hkeys, firstInsertionOrder, List.foldl_map]
      rfl
    · intro k
      rw [hkeys]
      have hfm := foldl_ins_mem (calls.map (fun c => c.1)) [] k
      rw [List.foldl_map] at hfm
      rw [show NewOutputWriter.Keys = ([] : List Str) from rfl, hfm]
      simp
  · intro ow k v l hnd hlen hm
    exact appendData_existing hnd hlen hm

/-- C6 witness: two distinct keys then a repeat of the first. -/
theorem c6_setField_columns_witness :
    (OutputWriter.mk [str "A", str "B"] [str "A", str "B"] []
        [str "1", str "2"]).Keys.Nodup ∧
    (OutputWriter.mk [str "A", str "B"] [str "A", str "B"] []
        [str "1", str "2"]).AppendDataWithLabel (str "A") (str "9") (str "zz") =
      some (OutputWriter.mk [str "A", str "B"] [str "A", str "B"] []
        [str "9", str "2"]) :=
  ⟨by decide,
    ((c6_setField_columns []).2
        (OutputWriter.mk [str "A", str "B"] [str "A", str "B"] []
          [str "1", str "2"])
        (str "A") (str "9") (str "zz") (by decide) (by decide)
        (by decide)).trans (by decide)⟩

/-- C7: with zero columns `WriteKeyValues` prints nothing and does not fail;
with a first finalized row covering all columns it prints one line per
column in insertion order, each line being the column's label right-aligned
(left-padded with spaces) to the maximum label length, then " : ", then row
0's value for that column. -/
theorem c7_keyvalues_lines (ow : OutputWriter) :
    (ow.finishExistingLine.Keys = [] →
       ow.WriteKeyValues = some (ow.finishExistingLine, [])) ∧
    (∀ r0 rest, ow.finishExistingLine.Values = r0 :: rest →
       ow.finishExistingLine.Labels.length = ow.finishExistingLine.Keys.length →
       ow.finishExistingLine.Keys.length ≤ r0.length →
       ow.WriteKeyValues =
         some (ow.finishExistingLine,
           (List.range ow.finishExistingLine.Keys.length).map (fun i =>
             List.replicate
                 (((ow.finishExistingLine.Labels.map List.length).foldr max 0) -
                   (ow.finishExistingLine.Labels.getD i []).length) ' ' ++
               ow.finishExistingLine.Labels.getD i [] ++ str " : " ++
               r0.getD i []))) := by
  constructor
  · intro hk
    simp only [OutputWriter.WriteKeyValues, hk, List.length_nil, List.range_zero,
      List.mapM_nil, Option.map_some']
    rfl
  · intro r0 rest hV hL hlen
    simp only [OutputWriter.WriteKeyValues]
    rw [mapM_some_of_forall _ _
      (fun i => OutputWriter.kvLine
        (OutputWriter.maxLabelLength ow.finishExistingLine.Labels)
        (ow.finishExistingLine.Labels.getD i []) (r0.getD i []))
      (fun i hi => ?_)]
    · rw [Option.map_some']
      refine congrArg some (congrArg _ ?_)
      refine List.map_congr_left (fun i hi => ?_)
      rw [OutputWriter.kvLine, maxLabelLength_eq]
    · have hi' : i < ow.finishExistingLine.Keys.length := List.mem_range.mp hi
      rw [hV]
      have h1 := get?_eq_some_getD r0 [] i (by omega)
      have h2 := get?_eq_some_getD ow.finishExistingLine.Labels [] i (by omega)
      rw [List.get?_eq_getElem?] at h1 h2
      cases hv : r0[i]? with
      | none =>
        rw [hv] at h1
        cases h1
      | some v =>
        cases hl : ow.finishExistingLine.Labels[i]? with
        | none =>
          rw [hl] at h2
          cases h2
        | some lab =>
          have hv' : r0.getD i [] = v := by
            rw [List.getD_eq_getElem?_getD, hv]
            rfl
          have hl' : ow.finishExistingLine.Labels.getD i [] = lab := by
            rw [List.getD_eq_getElem?_getD, hl]
            rfl
          simp [hv, hl, hv', hl']

/-- C7 witness: two columns with labels of widths 2 and 8. -/
theorem c7_keyvalues_lines_witness :
    (OutputWriter.mk [str "id", str "name"] [str "Id", str "FullName"]
        [[str "1", str "bob"]] []).finishExistingLine.Values =
      [str "1", str "bob"] :: [] ∧
    (OutputWriter.mk [str "id", str "name"] [str "Id", str "FullName"]
        [[str "1", str "bob"]] []).WriteKeyValues =
      some (OutputWriter.mk [str "id", str "name"] [str "Id", str "FullName"]
          [[str "1", str "bob"]] [],
        [str "      Id : 1", str "FullName : bob"]) :=
  ⟨by decide,
    ((c7_keyvalues_lines
        (OutputWriter.mk [str "id", str "name"] [str "Id", str "FullName"]
          [[str "1", str "bob"]] [])).2 [str "1", str "bob"] [] (by decide)
      (by decide) (by decide)).trans (by decide)⟩

/-- C8 counterexample: with keys "ID" and "BUILDID" and template
"BUILDID BUILDID", the later occurrence of the repeated key "BUILDID" does
NOT remain literal — the shorter key "ID" matches inside it, and the line
renders as "99 BUILD1", which no longer contains "BUILDID". -/
theorem c8_counterexample_later_occurrence_rewritten :
    (OutputWriter.mk [str "ID", str "BUILDID"] [str "ID", str "BUILDID"]
        [[str "1", str "99"]] []).WriteCustomOutput (str "BUILDID BUILDID") =
      some (OutputWriter.mk [str "BUILDID", str "ID"] [str "ID", str "BUILDID"]
        [[str "1", str "99"]] [], [str "99 BUILD1"]) ∧
    ¬ (str "BUILDID" <:+: str "99 BUILD1") := by
  decide

/-- C8 (amended): only the first occurrence of a key is substituted, and the
later occurrences remain literal PROVIDED the key is alphanumeric — free of
regex metacharacters, so that the code's `regexp.MustCompile(key)` presence
test is exactly a literal-substring test, the domain on which this model is
faithful — no other column key can match inside the later occurrences, and
the template and value stay clear of the renderer's placeholder/escape
alphabet.  Formalized for a single-column accumulator (alphanumeric key `K`,
row-0 value `v`): if `K` first occurs at `i` (and occurs again later), and
the template contains no `'$'` or backslash and the value no backslash,
every printed line is the template with exactly the first occurrence of `K`
replaced by `v` — the suffix `t.drop (i + K.length)`, holding all later
occurrences of `K`, is reproduced verbatim. -/
theorem c8_first_occurrence_only (K v : Str) (lbls : List Str)
    (r0rest : List Str) (rest : List (List Str)) (t : Str) (i : Nat)
    (halnum : ∀ c ∈ K, c.isAlphanum = true)
    (hocc : strIndex t K = some i)
    (hocc2 : (strIndex (t.drop (i + K.length)) K).isSome = true)
    (hdol : '$' ∉ t) (hbsT : '\\' ∉ t) (hbsV : '\\' ∉ v) :
    (OutputWriter.mk [K] lbls ((v :: r0rest) :: rest) []).WriteCustomOutput t =
      some (OutputWriter.mk [K] lbls ((v :: r0rest) :: rest) [],
        ((v :: r0rest) :: rest).map
          (fun _ => t.take i ++ v ++ t.drop (i + K.length))) := by
  have hp0 : placeholder 0 = '$' :: ['0', '$'] := rfl
  have hcmap : OutputWriter.cmapOf [K] (v :: r0rest) K = v := by
    simp [OutputWriter.cmapOf, List.lookup]
  have hna : '$' ∉ t.take i := fun hm => hdol (List.take_subset i t hm)
  have hns : ∀ j < (t.take i).length,
      ¬ placeholder 0 <+:
        (t.take i ++ (placeholder 0 ++ t.drop (i + K.length))).drop j := by
    rw [hp0]
    exact no_start_of_head_not_mem hna
  have hline : OutputWriter.customLine [K]
      (OutputWriter.cmapOf [K] (v :: r0rest)) t =
      t.take i ++ v ++ t.drop (i + K.length) := by
    rw [OutputWriter.customLine]
    simp only [List.enum, List.enumFrom, List.foldl_cons, List.foldl_nil, hocc,
      Option.isSome_some, if_true]
    rw [replaceNth_one, replaceOnce_first _ hocc]
    have hsite := strIndex_append_site (t.take i) (t.drop (i + K.length)) hns
    rw [hsite]
    simp only [Option.isSome_some, if_true]
    rw [replaceOnce_site (OutputWriter.cmapOf [K] (v :: r0rest) K) hns, hcmap]
    have hmem : '\\' ∉ t.take i ++ v ++ t.drop (i + K.length) := by
      simp only [List.mem_append, not_or]
      exact ⟨⟨fun hm => hbsT (List.take_subset i t hm), hbsV⟩,
        fun hm => hbsT (List.drop_subset (i + K.length) t hm)⟩
    have hbt : strIndex (t.take i ++ v ++ t.drop (i + K.length)) (str "\\t") = none := by
      rw [show (str "\\t") = '\\' :: ['t'] from rfl]
      exact strIndex_none_of_head_not_mem hmem
    have hbn : strIndex (t.take i ++ v ++ t.drop (i + K.length)) (str "\\n") = none := by
      rw [show (str "\\n") = '\\' :: ['n'] from rfl]
      exact strIndex_none_of_head_not_mem hmem
    rw [replaceAll_of_none _ hbt, replaceAll_of_none _ hbn]
  simp only [OutputWriter.WriteCustomOutput]
  rw [show OutputWriter.finishExistingLine
      (OutputWriter.mk [K] lbls ((v :: r0rest) :: rest) []) =
    OutputWriter.mk [K] lbls ((v :: r0rest) :: rest) [] from rfl]
  simp only [show sortByLen [K] = [K] from rfl, hline]
  simp

/-- C8 witness: the alphanumeric key "K" occurs twice in "aKbKc"; only the
first occurrence becomes "V" and the second stays literal. -/
theorem c8_first_occurrence_only_witness :
    (∀ c ∈ str "K", c.isAlphanum = true) ∧
    strIndex (str "aKbKc") (str "K") = some 1 ∧
    (OutputWriter.mk [str "K"] [str "K"] [[str "V"]] []).WriteCustomOutput
        (str "aKbKc") =
      some (OutputWriter.mk [str "K"] [str "K"] [[str "V"]] [],
        [str "aVbKc"]) :=
  ⟨by decide, by decide,
    (c8_first_occurrence_only (str "K") (str "V") [str "K"] [] [] (str "aKbKc")
      1 (by decide) (by decide) (by decide) (by decide) (by decide)
      (by decide)).trans (by decide)⟩

/-- The placeholder `"$0$"` cannot start inside an occurrence of the
placeholder `"$1$"` when the following segment contains no `'0'`. -/
theorem no_start_p0_after_p1 (A b : Str) (h0 : '0' ∉ A) :
    ∀ j < (['$', '1', '$'] : Str).length,
      ¬ (['$', '0', '$'] : Str) <+:
        ((['$', '1', '$'] : Str) ++ (A ++ ((['$', '0', '$'] : Str) ++ b))).drop
          j := by
  intro j hj hpre
  have hj3 : j < 3 := by simpa using hj
  interval_cases j
  · simp [List.cons_prefix_cons] at hpre
  · simp [List.cons_prefix_cons] at hpre
  · rw [show ((['$', '1', '$'] : Str) ++
        (A ++ ((['$', '0', '$'] : Str) ++ b))).drop 2 =
      '$' :: (A ++ ('$' :: ('0' :: ('$' :: b)))) from by simp] at hpre
    rw [List.cons_prefix_cons] at hpre
    obtain ⟨-, hpre2⟩ := hpre
    cases A with
    | nil => simp [List.cons_prefix_cons] at hpre2
    | cons d A' =>
      rw [List.cons_append, List.cons_prefix_cons] at hpre2
      exact h0 (hpre2.1 ▸ List.mem_cons_self d A')

/-- The per-row line computed by `WriteCustomOutput` for the two-key
accumulator `ID→"1"`, `BUILDID→"99"` on a template decomposed around its
first `"BUILDID"` occurrence (`a ++ "BUILDID" ++ b`), when the template is
free of `'$'`, `'0'` and backslash: `"BUILDID"` becomes `"99"` at its site,
and the first remaining `"ID"` (in the prefix, in the suffix, or absent)
becomes `"1"`. -/
theorem c3_line_core (a b : Str)
    (hfirst : strIndex (a ++ str "BUILDID" ++ b) (str "BUILDID") =
      some a.length)
    (hadol : '$' ∉ a) (hbdol : '$' ∉ b) (ha0 : '0' ∉ a)
    (habs : '\\' ∉ a) (hbbs : '\\' ∉ b) :
    OutputWriter.customLine [str "BUILDID", str "ID"]
      (OutputWriter.cmapOf [str "ID", str "BUILDID"] [str "1", str "99"])
      (a ++ str "BUILDID" ++ b) =
      match strIndex a (str "ID"), strIndex b (str "ID") with
      | some j, _ =>
          a.take j ++ str "1" ++ a.drop (j + 2) ++ str "99" ++ b
      | none, some jb =>
          a ++ str "99" ++ b.take jb ++ str "1" ++ b.drop (jb + 2)
      | none, none => a ++ str "99" ++ b := by
  have hq0 : placeholder 0 = (['$', '0', '$'] : Str) := rfl
  have hq1 : placeholder 1 = (['$', '1', '$'] : Str) := rfl
  have henum : List.enum [str "BUILDID", (['I', 'D'] : Str)] =
      [(0, str "BUILDID"), (1, (['I', 'D'] : Str))] := rfl
  have hcm99 : OutputWriter.cmapOf [(['I', 'D'] : Str), str "BUILDID"]
      [str "1", str "99"] (str "BUILDID") = (['9', '9'] : Str) := by decide
  have hcm1 : OutputWriter.cmapOf [(['I', 'D'] : Str), str "BUILDID"]
      [str "1", str "99"] (['I', 'D'] : Str) = (['1'] : Str) := by decide
  -- pass 1, step "BUILDID": no occurrence starts inside `a`
  have hns0 : ∀ j < a.length,
      ¬ (str "BUILDID") <+: (a ++ (str "BUILDID" ++ b)).drop j := by
    have hmin := ((strIndex_some_iff (str "BUILDID") (a ++ str "BUILDID" ++ b)
      a.length).mp hfirst).2
    intro j hj
    have hx := hmin j hj
    rw [List.append_assoc] at hx
    exact hx
  simp only [show (str "ID") = (['I', 'D'] : Str) from rfl]
  rw [OutputWriter.customLine]
  simp only [henum, List.foldl_cons, List.foldl_nil, hq0, hq1]
  rw [hfirst]
  simp only [Option.isSome_some, if_true]
  rw [replaceNth_one, replaceOnce_site (['$', '0', '$'] : Str) hns0]
  cases hA : strIndex a (['I', 'D'] : Str) with
  | some j =>
    -- the first "ID" lies inside `a`
    simp only [hA]
    obtain ⟨hdecA, hulen⟩ := strIndex_decomp hA
    rw [show (['I', 'D'] : Str).length = 2 from rfl] at hdecA
    set u := a.take j with hu
    set w := a.drop (j + 2) with hw
    have hdolu : '$' ∉ u := by
      rw [hu]
      exact fun hm => hadol (List.take_subset j a hm)
    have hdolw : '$' ∉ w := by
      rw [hw]
      exact fun hm => hadol (List.drop_subset (j + 2) a hm)
    have h0w : '0' ∉ w := by
      rw [hw]
      exact fun hm => ha0 (List.drop_subset (j + 2) a hm)
    have hbsu : '\\' ∉ u := by
      rw [hu]
      exact fun hm => habs (List.take_subset j a hm)
    have hbsw : '\\' ∉ w := by
      rw [hw]
      exact fun hm => habs (List.drop_subset (j + 2) a hm)
    have heq1 : a ++ ((['$', '0', '$'] : Str) ++ b) =
        u ++ ((['I', 'D'] : Str) ++ (w ++ ((['$', '0', '$'] : Str) ++ b))) := by
      rw [hdecA]
      simp [List.append_assoc]
    have hnsu : ∀ j' < u.length,
        ¬ (['I', 'D'] : Str) <+:
          (u ++ ((['I', 'D'] : Str) ++
            (w ++ ((['$', '0', '$'] : Str) ++ b)))).drop j' := by
      intro j' hj'
      have hx := no_start_lt_first ((['$', '0', '$'] : Str) ++ b) hA j'
        (by rw [hulen] at hj'; omega)
      rw [heq1] at hx
      exact hx
    have hshapeA : a ++ (['$', '0', '$'] : Str) ++ b =
        u ++ (['I', 'D'] : Str) ++ (w ++ ((['$', '0', '$'] : Str) ++ b)) := by
      rw [hdecA]
      simp [List.append_assoc]
    rw [hshapeA]
    have hsite1 := strIndex_append_site u
      (w ++ ((['$', '0', '$'] : Str) ++ b)) hnsu
    rw [hsite1]
    simp only [Option.isSome_some, if_true]
    rw [replaceNth_one, replaceOnce_site (['$', '1', '$'] : Str) hnsu]
    -- pass 2, "$0$"
    have hh1 : ∀ j' < u.length,
        ¬ (['$', '0', '$'] : Str) <+:
          (u ++ ((['$', '1', '$'] : Str) ++
            (w ++ ((['$', '0', '$'] : Str) ++ b)))).drop j' :=
      no_start_of_head_not_mem hdolu
    have hC1 := no_start_append hh1 (no_start_p0_after_p1 w b h0w)
    have hh2 : ∀ j' < w.length,
        ¬ (['$', '0', '$'] : Str) <+:
          (w ++ ((['$', '0', '$'] : Str) ++ b)).drop j' :=
      no_start_of_head_not_mem hdolw
    have hC2 := no_start_append hC1 hh2
    have hsh2 : u ++ (['$', '1', '$'] : Str) ++
        (w ++ ((['$', '0', '$'] : Str) ++ b)) =
        ((u ++ ['$', '1', '$']) ++ w) ++ (['$', '0', '$'] : Str) ++ b := by
      simp [List.append_assoc]
    rw [hsh2]
    have hsite2 := strIndex_append_site ((u ++ ['$', '1', '$']) ++ w) b hC2
    rw [hsite2]
    simp only [Option.isSome_some, if_true]
    rw [hcm99, replaceOnce_site (['9', '9'] : Str) hC2]
    -- pass 2, "$1$"
    have hsh3 : ((u ++ ['$', '1', '$']) ++ w) ++ (['9', '9'] : Str) ++ b =
        u ++ (['$', '1', '$'] : Str) ++ (w ++ ((['9', '9'] : Str) ++ b)) := by
      simp [List.append_assoc]
    rw [hsh3]
    have hns3 : ∀ j' < u.length,
        ¬ (['$', '1', '$'] : Str) <+:
          (u ++ ((['$', '1', '$'] : Str) ++
            (w ++ ((['9', '9'] : Str) ++ b)))).drop j' :=
      no_start_of_head_not_mem hdolu
    have hsite3 := strIndex_append_site u (w ++ ((['9', '9'] : Str) ++ b)) hns3
    rw [hsite3]
    simp only [Option.isSome_some, if_true]
    rw [hcm1, replaceOnce_site (['1'] : Str) hns3]
    -- escapes are inert
    have hmem : '\\' ∉ u ++ (['1'] : Str) ++
        (w ++ ((['9', '9'] : Str) ++ b)) := by
      simp only [List.mem_append, not_or]
      refine ⟨⟨hbsu, by decide⟩, hbsw, by decide, hbbs⟩
    have hbt : strIndex (u ++ (['1'] : Str) ++
        (w ++ ((['9', '9'] : Str) ++ b))) (str "\\t") = none := by
      rw [show (str "\\t") = '\\' :: ['t'] from rfl]
      exact strIndex_none_of_head_not_mem hmem
    have hbn : strIndex (u ++ (['1'] : Str) ++
        (w ++ ((['9', '9'] : Str) ++ b))) (str "\\n") = none := by
      rw [show (str "\\n") = '\\' :: ['n'] from rfl]
      exact strIndex_none_of_head_not_mem hmem
    rw [replaceAll_of_none _ hbt, replaceAll_of_none _ hbn]
    simp [List.append_assoc, show (str "1") = (['1'] : Str) from rfl,
      show (str "99") = (['9', '9'] : Str) from rfl]
  | none =>
    have hnoneA : ∀ j', ¬ (['I', 'D'] : Str) <+: a.drop j' :=
      (strIndex_none_iff (['I', 'D'] : Str) a).mp hA
    have hheadR : ∀ d, ((['$', '0', '$'] : Str) ++ b).head? = some d →
        'D' ≠ d := by
      intro d hd
      have hd' : d = '$' := by
        rw [show ((['$', '0', '$'] : Str) ++ b).head? = some '$' from rfl] at hd
        exact (Option.some.inj hd).symm
      rw [hd']
      decide
    have hnsa : ∀ j' < a.length,
        ¬ (['I', 'D'] : Str) <+:
          (a ++ ((['$', '0', '$'] : Str) ++ b)).drop j' :=
      no_start_two hnoneA hheadR
    cases hB : strIndex b (['I', 'D'] : Str) with
    | some jb =>
      obtain ⟨hdecB, hblen⟩ := strIndex_decomp hB
      rw [show (['I', 'D'] : Str).length = 2 from rfl] at hdecB
      set ub := b.take jb with hub
      set wb := b.drop (jb + 2) with hwb
      have hdolub : '$' ∉ ub := by
        rw [hub]
        exact fun hm => hbdol (List.take_subset jb b hm)
      have hdolwb : '$' ∉ wb := by
        rw [hwb]
        exact fun hm => hbdol (List.drop_subset (jb + 2) b hm)
      have hbsub : '\\' ∉ ub := by
        rw [hub]
        exact fun hm => hbbs (List.take_subset jb b hm)
      have hbswb : '\\' ∉ wb := by
        rw [hwb]
        exact fun hm => hbbs (List.drop_subset (jb + 2) b hm)
      have heqB : a ++ ((['$', '0', '$'] : Str) ++ b) =
          a ++ ((['$', '0', '$'] : Str) ++
            (ub ++ ((['I', 'D'] : Str) ++ wb))) := by
        rw [hdecB]
        simp [List.append_assoc]
      have hC1a : ∀ j' < a.length,
          ¬ (['I', 'D'] : Str) <+:
            (a ++ ((['$', '0', '$'] : Str) ++
              (ub ++ ((['I', 'D'] : Str) ++ wb)))).drop j' := by
        intro j' hj'
        have hx := hnsa j' hj'
        rw [heqB] at hx
        exact hx
      have hC1b : ∀ j' < (['$', '0', '$'] : Str).length,
          ¬ (['I', 'D'] : Str) <+:
            ((['$', '0', '$'] : Str) ++
              (ub ++ ((['I', 'D'] : Str) ++ wb))).drop j' :=
        no_start_of_head_not_mem (by decide)
      have hC1 := no_start_append hC1a hC1b
      have heqb2 : b = ub ++ ((['I', 'D'] : Str) ++ wb) := by
        rw [hdecB]
        simp [List.append_assoc]
      have hC2b : ∀ j' < ub.length,
          ¬ (['I', 'D'] : Str) <+: (ub ++ ((['I', 'D'] : Str) ++ wb)).drop j' := by
        intro j' hj'
        have hminB := ((strIndex_some_iff (['I', 'D'] : Str) b jb).mp hB).2
        have hx := hminB j' (by rw [hblen] at hj'; omega)
        rw [heqb2] at hx
        exact hx
      have hC2 := no_start_append hC1 hC2b
      have hshB : a ++ (['$', '0', '$'] : Str) ++ b =
          ((a ++ ['$', '0', '$']) ++ ub) ++ (['I', 'D'] : Str) ++ wb := by
        rw [hdecB]
        simp [List.append_assoc]
      rw [hshB]
      have hsiteB := strIndex_append_site ((a ++ ['$', '0', '$']) ++ ub) wb hC2
      rw [hsiteB]
      simp only [Option.isSome_some, if_true]
      rw [replaceNth_one, replaceOnce_site (['$', '1', '$'] : Str) hC2]
      have hsh2B : ((a ++ ['$', '0', '$']) ++ ub) ++ (['$', '1', '$'] : Str) ++
          wb =
          a ++ (['$', '0', '$'] : Str) ++
            (ub ++ ((['$', '1', '$'] : Str) ++ wb)) := by
        simp [List.append_assoc]
      rw [hsh2B]
      have hns0B : ∀ j' < a.length,
          ¬ (['$', '0', '$'] : Str) <+:
            (a ++ ((['$', '0', '$'] : Str) ++
              (ub ++ ((['$', '1', '$'] : Str) ++ wb)))).drop j' :=
        no_start_of_head_not_mem hadol
      have hsite2B := strIndex_append_site a
        (ub ++ ((['$', '1', '$'] : Str) ++ wb)) hns0B
      rw [hsite2B]
      simp only [Option.isSome_some, if_true]
      rw [hcm99, replaceOnce_site (['9', '9'] : Str) hns0B]
      have hsh3B : a ++ (['9', '9'] : Str) ++
          (ub ++ ((['$', '1', '$'] : Str) ++ wb)) =
          ((a ++ ['9', '9']) ++ ub) ++ (['$', '1', '$'] : Str) ++ wb := by
        simp [List.append_assoc]
      rw [hsh3B]
      have hdolX : '$' ∉ (a ++ ['9', '9']) ++ ub := by
        simp only [List.mem_append, not_or]
        exact ⟨⟨hadol, by decide⟩, hdolub⟩
      have hns1B : ∀ j' < ((a ++ ['9', '9']) ++ ub).length,
          ¬ (['$', '1', '$'] : Str) <+:
            (((a ++ ['9', '9']) ++ ub) ++
              ((['$', '1', '$'] : Str) ++ wb)).drop j' :=
        no_start_of_head_not_mem hdolX
      have hsite3B := strIndex_append_site ((a ++ ['9', '9']) ++ ub) wb hns1B
      rw [hsite3B]
      simp only [Option.isSome_some, if_true]
      rw [hcm1, replaceOnce_site (['1'] : Str) hns1B]
      have hmem : '\\' ∉ ((a ++ ['9', '9']) ++ ub) ++ (['1'] : Str) ++ wb := by
        simp [List.mem_append, habs, hbsub, hbswb]
      have hbt : strIndex (((a ++ ['9', '9']) ++ ub) ++ (['1'] : Str) ++ wb)
          (str "\\t") = none := by
        rw [show (str "\\t") = '\\' :: ['t'] from rfl]
        exact strIndex_none_of_head_not_mem hmem
      have hbn : strIndex (((a ++ ['9', '9']) ++ ub) ++ (['1'] : Str) ++ wb)
          (str "\\n") = none := by
        rw [show (str "\\n") = '\\' :: ['n'] from rfl]
        exact strIndex_none_of_head_not_mem hmem
      rw [replaceAll_of_none _ hbt, replaceAll_of_none _ hbn]
      simp [List.append_assoc, show (str "1") = (['1'] : Str) from rfl,
        show (str "99") = (['9', '9'] : Str) from rfl]
    | none =>
      have hIDnone : strIndex (a ++ (['$', '0', '$'] : Str) ++ b)
          (['I', 'D'] : Str) = none := by
        rw [List.append_assoc,
          strIndex_append_right ((['$', '0', '$'] : Str) ++ b) a hnsa]
        have hnsp : ∀ j' < (['$', '0', '$'] : Str).length,
            ¬ (['I', 'D'] : Str) <+: ((['$', '0', '$'] : Str) ++ b).drop j' :=
          no_start_of_head_not_mem (by decide)
        rw [strIndex_append_right b (['$', '0', '$'] : Str) hnsp, hB]
        rfl
      rw [hIDnone]
      rw [if_neg (show ¬ ((none : Option Nat).isSome = true) by decide)]
      have hns0C : ∀ j' < a.length,
          ¬ (['$', '0', '$'] : Str) <+:
            (a ++ ((['$', '0', '$'] : Str) ++ b)).drop j' :=
        no_start_of_head_not_mem hadol
      have hsiteC := strIndex_append_site a b hns0C
      rw [hsiteC]
      simp only [Option.isSome_some, if_true]
      rw [hcm99, replaceOnce_site (['9', '9'] : Str) hns0C]
      have hmem1 : '$' ∉ a ++ (['9', '9'] : Str) ++ b := by
        simp only [List.mem_append, not_or]
        exact ⟨⟨hadol, by decide⟩, hbdol⟩
      have h1none : strIndex (a ++ (['9', '9'] : Str) ++ b)
          (['$', '1', '$'] : Str) = none :=
        strIndex_none_of_head_not_mem hmem1
      rw [h1none]
      rw [if_neg (show ¬ ((none : Option Nat).isSome = true) by decide)]
      have hmem : '\\' ∉ a ++ (['9', '9'] : Str) ++ b := by
        simp only [List.mem_append, not_or]
        exact ⟨⟨habs, by decide⟩, hbbs⟩
      have hbt : strIndex (a ++ (['9', '9'] : Str) ++ b) (str "\\t") =
          none := by
        rw [show (str "\\t") = '\\' :: ['t'] from rfl]
        exact strIndex_none_of_head_not_mem hmem
      have hbn : strIndex (a ++ (['9', '9'] : Str) ++ b) (str "\\n") =
          none := by
        rw [show (str "\\n") = '\\' :: ['n'] from rfl]
        exact strIndex_none_of_head_not_mem hmem
      rw [replaceAll_of_none _ hbt, replaceAll_of_none _ hbn]
      simp [show (str "99") = (['9', '9'] : Str) from rfl]


/-- C3 counterexample: with columns `ID="1"`, `BUILDID="99"` and the template
"ID0BUILDID" (which contains the literal text "BUILDID" at its end), the
rendered line is "$1990$": the template's `'0'` merges with the `"$1$"`
placeholder into a spurious `"$0$"`, which swallows the value "99", so the
output does not carry "99" at the BUILDID position (the line does not even
end with "99") — it is exactly a string spliced out of "1", "99" and
placeholder debris. -/
theorem c3_counterexample_placeholder_collision :
    (OutputWriter.mk [str "ID", str "BUILDID"] [str "ID", str "BUILDID"]
        [[str "1", str "99"]] []).WriteCustomOutput (str "ID0BUILDID") =
      some (OutputWriter.mk [str "BUILDID", str "ID"] [str "ID", str "BUILDID"]
        [[str "1", str "99"]] [], [str "$1990$"]) ∧
    ¬ (str "99" <:+ str "$1990$") := by
  decide

/-- C3 (amended): for the accumulator with columns `ID="1"` and
`BUILDID="99"`, rendering any template that contains "BUILDID" yields "99"
at that occurrence's position — the line is the template with the first
"BUILDID" replaced by "99" and the first remaining "ID" replaced by "1",
everything else verbatim — PROVIDED the template contains no `'$'`, `'0'`
or backslash character (such characters can collide with the renderer's
internal `$index$` placeholders and escape sequences, as the counterexample
shows). -/
theorem c3_longest_key_first (lbls : List Str) (rest : List (List Str))
    (t : Str) (i : Nat)
    (hocc : strIndex t (str "BUILDID") = some i)
    (hdol : '$' ∉ t) (h0 : '0' ∉ t) (hbs : '\\' ∉ t) :
    (OutputWriter.mk [str "ID", str "BUILDID"] lbls
        ([str "1", str "99"] :: rest) []).WriteCustomOutput t =
      some (OutputWriter.mk [str "BUILDID", str "ID"] lbls
          ([str "1", str "99"] :: rest) [],
        ([str "1", str "99"] :: rest).map (fun _ =>
          match strIndex (t.take i) (str "ID"),
              strIndex (t.drop (i + 7)) (str "ID") with
          | some j, _ =>
              (t.take i).take j ++ str "1" ++ (t.take i).drop (j + 2) ++
                str "99" ++ t.drop (i + 7)
          | none, some jb =>
              t.take i ++ str "99" ++ (t.drop (i + 7)).take jb ++ str "1" ++
                (t.drop (i + 7)).drop (jb + 2)
          | none, none => t.take i ++ str "99" ++ t.drop (i + 7))) := by
  obtain ⟨hdec, htlen⟩ := strIndex_decomp hocc
  rw [show (str "BUILDID").length = 7 from rfl] at hdec
  set a := t.take i with ha
  set b := t.drop (i + 7) with hb
  have hadol : '$' ∉ a := by
    rw [ha]
    exact fun hm => hdol (List.take_subset i t hm)
  have hbdol : '$' ∉ b := by
    rw [hb]
    exact fun hm => hdol (List.drop_subset (i + 7) t hm)
  have ha0 : '0' ∉ a := by
    rw [ha]
    exact fun hm => h0 (List.take_subset i t hm)
  have habs : '\\' ∉ a := by
    rw [ha]
    exact fun hm => hbs (List.take_subset i t hm)
  have hbbs : '\\' ∉ b := by
    rw [hb]
    exact fun hm => hbs (List.drop_subset (i + 7) t hm)
  have hfirst : strIndex (a ++ str "BUILDID" ++ b) (str "BUILDID") =
      some a.length := by
    rw [← hdec, hocc, htlen]
  have hline := c3_line_core a b hfirst hadol hbdol ha0 habs hbbs
  simp only [OutputWriter.WriteCustomOutput]
  rw [show OutputWriter.finishExistingLine
      (OutputWriter.mk [str "ID", str "BUILDID"] lbls
        ([str "1", str "99"] :: rest) []) =
    OutputWriter.mk [str "ID", str "BUILDID"] lbls
      ([str "1", str "99"] :: rest) [] from rfl]
  simp only [show sortByLen [str "ID", str "BUILDID"] =
    [str "BUILDID", str "ID"] from rfl]
  rw [hdec]
  simp only [hline]
  simp

/-- C3 witness: the template "x BUILDID y ID z" renders as "x 99 y 1 z". -/
theorem c3_longest_key_first_witness :
    strIndex (str "x BUILDID y ID z") (str "BUILDID") = some 2 ∧
    '$' ∉ str "x BUILDID y ID z" ∧
    (OutputWriter.mk [str "ID", str "BUILDID"] [str "ID", str "BUILDID"]
        [[str "1", str "99"]] []).WriteCustomOutput
        (str "x BUILDID y ID z") =
      some (OutputWriter.mk [str "BUILDID", str "ID"]
        [str "ID", str "BUILDID"] [[str "1", str "99"]] [],
        [str "x 99 y 1 z"]) :=
  ⟨by decide, by decide,
    (c3_longest_key_first [str "ID", str "BUILDID"] []
      (str "x BUILDID y ID z") 2 (by decide) (by decide) (by decide)
      (by decide)).trans (by decide)⟩
